import Mathlib

/-!
Shallow embedding of the `fuzzy_set_arythmetic` package
(`alpha.py`, `border.py`, `alpha_cut.py`, `fuzzy_set.py`, `t_norm.py`).

Modelling conventions:
* The three exact numeric representations (`float`, `Decimal`, `Fraction`)
  are modelled as a tag `Rep` together with a value in `ℚ`.  All concrete
  values appearing in the claims are decimal fractions, which every one of
  the three Python representations stores and compares exactly, and Python
  compares the underlying numbers of distinct representations by exact
  numeric value, which `ℚ` models faithfully.
* Python exceptions are modelled by `Except Err`; each error kind of the
  spec taxonomy gets one constructor.
* Python's `list.sort(key=coord)` is a stable sort of the tagged list
  `lefts ++ rights`; its output is sorted by coordinate and, at equal
  coordinates, has all Left-tagged points before all Right-tagged points
  (the lefts were first in the unsorted list).  That output list is uniquely
  determined by those two facts, so we model the sort by
  `List.insertionSort` with the relation `sabLE` that refines coordinate
  order by the Left-before-Right tie rule; `sabLE` is total, transitive and
  antisymmetric on tagged points, hence the sorted result is the same list.
-/

namespace FSA

instance {ε α : Type _} [DecidableEq ε] [DecidableEq α] : DecidableEq (Except ε α) :=
  fun a b =>
  match a, b with
  | .error e, .error f =>
    if h : e = f then isTrue (by rw [h]) else isFalse (by intro hh; cases hh; exact h rfl)
  | .ok x, .ok y =>
    if h : x = y then isTrue (by rw [h]) else isFalse (by intro hh; cases hh; exact h rfl)
  | .error _, .ok _ => isFalse (by intro h; cases h)
  | .ok _, .error _ => isFalse (by intro h; cases h)

@[simp] theorem ok_bind {ε α β : Type _} (x : α) (f : α → Except ε β) :
    (Except.ok x >>= f) = f x := rfl

@[simp] theorem error_bind {ε α β : Type _} (e : ε) (f : α → Except ε β) :
    (Except.error e >>= f : Except ε β) = Except.error e := rfl

@[simp] theorem pure_except {ε α : Type _} (x : α) :
    (pure x : Except ε α) = Except.ok x := rfl

/-- Error kinds of the package (section 7 of the spec, one constructor per
Python `TypeError`/`ValueError` site). -/
inductive Err where
  | typeErr
  | rangeErr
  | valueErr
  | divideByZero
  | malformedInterval
  | duplicateLevel
  | notFound
  | obstructed
  deriving DecidableEq, Repr

/-- The three numeric representations accepted by `Alpha` (`AlphaType`). -/
inductive Rep where
  | float
  | decimal
  | fraction
  deriving DecidableEq, Repr

/-- `BorderSide` of `types.py` (the `INSIDE` tag is used only by the
out-of-scope plotting consumer and is not needed by any claim). -/
inductive BSide where
  | left
  | right
  deriving DecidableEq, Repr

/-- `SaB` of `types.py`: a side tag together with a coordinate. -/
structure SaB where
  side : BSide
  coord : ℚ
  deriving DecidableEq, Repr

/-- `Alpha` of `alpha.py`: a numeric representation tag, the wrapped value
and the `small_check` relaxation flag. -/
structure Alpha where
  rep : Rep
  value : ℚ
  smallCheck : Bool
  deriving DecidableEq, Repr

namespace Alpha

/-- `Alpha.__init__` / `_type_check`: the value must lie in `[0, 1]`
unless `small_check` is set. -/
def mk' (rep : Rep) (value : ℚ) (smallCheck : Bool) : Except Err Alpha :=
  if ¬ smallCheck ∧ ¬ (0 ≤ value ∧ value ≤ 1) then .error .rangeErr
  else .ok ⟨rep, value, smallCheck⟩

/-- `Alpha.small_check` setter with `False`: re-runs `_type_check`, so it
fails with `RangeKind` when the value is outside `[0, 1]`. -/
def setSmallCheckFalse (a : Alpha) : Except Err Alpha :=
  if ¬ (0 ≤ a.value ∧ a.value ≤ 1) then .error .rangeErr
  else .ok ⟨a.rep, a.value, false⟩

/-- `Alpha._check_and_do_given_operation`: fails with `TypeKind` when the
operand representations differ, otherwise applies the given operation and
wraps the result with the relaxation flag set. -/
def checkAndDo (a b : Alpha) (op : ℚ → ℚ → ℚ) : Except Err Alpha :=
  if a.rep ≠ b.rep then .error .typeErr
  else .ok ⟨a.rep, op a.value b.value, true⟩

/-- `Alpha.__add__`. -/
def add (a b : Alpha) : Except Err Alpha := checkAndDo a b (· + ·)

/-- `Alpha.__sub__`. -/
def sub (a b : Alpha) : Except Err Alpha := checkAndDo a b (· - ·)

/-- `Alpha.__mul__`. -/
def mul (a b : Alpha) : Except Err Alpha := checkAndDo a b (· * ·)

/-- `Alpha.__truediv__`: checks for a zero divisor value first (raising
`DivideByZeroKind`), then delegates to `_check_and_do_given_operation`. -/
def div (a b : Alpha) : Except Err Alpha :=
  if b.value = 0 then .error .divideByZero
  else checkAndDo a b (· / ·)

/-- `Alpha.__lt__`: compares the wrapped values directly, with no
representation check. -/
def lt (a b : Alpha) : Bool := a.value < b.value

/-- `Alpha.__gt__`: compares the wrapped values directly, with no
representation check. -/
def gt (a b : Alpha) : Bool := a.value > b.value

/-- `Alpha.__eq__` against another `Alpha`: `check_and_get_type` raises
`TypeKind` when the representations differ, otherwise the values are
compared. -/
def eq (a b : Alpha) : Except Err Bool :=
  if a.rep ≠ b.rep then .error .typeErr
  else .ok (a.value == b.value)

end Alpha

/-- `Border` of `border.py`: the breakpoint tuple, the `covered` flag and
the optional side tag.  (The numeric-representation uniformity check of
`Border._check` is not modelled: every claim uses single-representation
breakpoint lists, embedded in `ℚ`.) -/
structure Border where
  borders : List ℚ
  covered : Bool
  side : Option BSide
  deriving DecidableEq, Repr

/-- Strict increase of a breakpoint list, as tested by `Border._check`
(`any(last >= nxt ...)` sets `covered`; this is its negation). -/
def strictSorted : List ℚ → Bool
  | [] => true
  | [_] => true
  | a :: b :: rest => a < b && strictSorted (b :: rest)

namespace Border

/-- `Border.__init__` on a sequence: an empty sequence raises `ValueKind`;
the `covered` flag is forced to `true` when the breakpoints are not
strictly increasing. -/
def mk' (bs : List ℚ) (covered : Bool) (side : Option BSide) : Except Err Border :=
  if bs.isEmpty then .error .valueErr
  else .ok ⟨bs, covered || !strictSorted bs, side⟩

/-- `Border.__add__`: the cartesian (m×n) list of pairwise sums, returned
as a new `covered=True` border with no side tag. -/
def add (a b : Border) : Border :=
  ⟨a.borders.flatMap (fun x => b.borders.map (fun y => x + y)), true, none⟩

/-- `Border.__mul__` (broadcast multiply): one operand must be a
singleton, otherwise `ValueKind`. -/
def mul (a b : Border) : Except Err Border :=
  if b.borders.length ≠ 1 ∧ a.borders.length ≠ 1 then .error .valueErr
  else .ok ⟨a.borders.flatMap (fun x => b.borders.map (fun y => x * y)), true, none⟩

/-- `Border.get_sab_list`: tags every breakpoint with the border's own
side; raises `TypeKind` when the side is unset. -/
def getSabList (b : Border) : Except Err (List SaB) :=
  match b.side with
  | none => .error .typeErr
  | some s => .ok (b.borders.map (fun c => ⟨s, c⟩))

end Border

/-- The comparison used to model the stable coordinate sort inside
`Border.uncover` (see the module comment): coordinate order, refined at
ties by the Left-before-Right rule. -/
def sabLE (a b : SaB) : Prop :=
  a.coord < b.coord ∨ (a.coord = b.coord ∧ (a.side = .left ∨ b.side = .right))

instance : DecidableRel sabLE := fun a b =>
  inferInstanceAs (Decidable (a.coord < b.coord ∨
    (a.coord = b.coord ∧ (a.side = .left ∨ b.side = .right))))

/-- The sweep loop of `Border.uncover`: walk the sorted tagged points with
a counter; a Left tag increments it and emits a new left boundary when the
counter becomes 1, a Right tag decrements it and emits a new right
boundary when the counter becomes 0; a negative counter aborts
(`MalformedIntervalKind`). -/
def sweep : List SaB → Int → List ℚ → List ℚ → Option (List ℚ × List ℚ)
  | [], _, nl, nr => some (nl, nr)
  | s :: rest, c, nl, nr =>
    match s.side with
    | .left =>
      sweep rest (c + 1) (if c + 1 = 1 then nl ++ [s.coord] else nl) nr
    | .right =>
      if c - 1 < 0 then none
      else sweep rest (c - 1) nl (if c - 1 = 0 then nr ++ [s.coord] else nr)

namespace Border

/-- `Border.uncover`: checks equal length, tags and merges the two
breakpoint lists, sorts by coordinate, sweeps, and wraps the two emitted
lists as fresh `Left`/`Right` borders. -/
def uncover (left right : Border) : Except Err (Border × Border) :=
  if left.borders.length ≠ right.borders.length then .error .valueErr
  else do
    let sl ← left.getSabList
    let sr ← right.getSabList
    let sorted := List.insertionSort sabLE (sl ++ sr)
    match sweep sorted 0 [] [] with
    | none => .error .malformedInterval
    | some (nl, nr) => do
      let bl ← Border.mk' nl false (some .left)
      let br ← Border.mk' nr false (some .right)
      .ok (bl, br)

/-- `Border.are_left_right`: the validity check for a Left/Right border
pair (equal length, `left[i] ≤ right[i]`, `right[i] ≤ left[i+1]`, neither
covered; the shared-representation check is trivial in this embedding). -/
def areLeftRight (left right : Border) : Except Err Unit :=
  if left.borders.length ≠ right.borders.length then .error .valueErr
  else if ¬ (left.borders.zip right.borders).all (fun p => p.1 ≤ p.2) then .error .valueErr
  else if ¬ (left.borders.tail.zip right.borders.dropLast).all (fun p => p.2 ≤ p.1) then
    .error .valueErr
  else if left.covered || right.covered then .error .valueErr
  else .ok ()

end Border

/-- `AlphaCut` of `alpha_cut.py`: a level together with the left and right
border objects. -/
structure AlphaCut where
  level : Alpha
  left : Border
  right : Border
  deriving DecidableEq, Repr

namespace AlphaCut

/-- `AlphaCut.__init__` on already-built `Border` objects:
`_borders_check` assigns the default `Left`/`Right` roles when unset and
then runs `Border.are_left_right`. -/
def mk' (level : Alpha) (left right : Border) : Except Err AlphaCut := do
  let l := { left with side := if left.side = none then some .left else left.side }
  let r := { right with side := if right.side = none then some .right else right.side }
  Border.areLeftRight l r
  .ok ⟨level, l, r⟩

/-- `AlphaCut.__init__` on raw breakpoint lists (the common call shape
`AlphaCut(level, lefts, rights)`): the level is wrapped by `Alpha(level)`
and the lists by `Border(..., side=LEFT/RIGHT)`. -/
def build (level : ℚ) (lefts rights : List ℚ) : Except Err AlphaCut := do
  let a ← Alpha.mk' .float level false
  let l ← Border.mk' lefts false (some .left)
  let r ← Border.mk' rights false (some .right)
  mk' a l r

/-- `AlphaCut.__contains__` for an `AlphaCut` argument: `False` when the
narrow cut starts left of the wide cut; otherwise, for every narrow
sub-interval `(l, r)`, look up the first index of `wide.left` whose value
is `≥ l` (Python keeps `-1`, i.e. the last element, when the scan is
exhausted) and require `r ≤ wide.right[index]`. -/
def contains (wide narrow : AlphaCut) : Bool :=
  if narrow.left.borders.headI < wide.left.borders.headI then false
  else (narrow.left.borders.zip narrow.right.borders).all fun p =>
    match wide.left.borders.findIdx? (fun v => p.1 ≤ v) with
    | some k => p.2 ≤ wide.right.borders.getD k 0
    | none => p.2 ≤ wide.right.borders.getLastD 0

/-- `AlphaCut.__eq__`: same level (an `Alpha` comparison, which can raise
`TypeKind`), then equality of the two breakpoint tuples
(`Border.__eq__` compares only `borders`). -/
def eq (a b : AlphaCut) : Except Err Bool := do
  let lv ← Alpha.eq a.level b.level
  if ¬ lv then .ok false
  else .ok (a.left.borders == b.left.borders && a.right.borders == b.right.borders)

/-- `AlphaCut.invert`: negate both borders (broadcast multiply by `-1`),
swap the left/right roles, repair with `uncover` and rebuild the cut from
`self.level.value`. -/
def invert (c : AlphaCut) : Except Err AlphaCut := do
  let nl ← Border.mul c.right ⟨[-1], false, none⟩
  let nr ← Border.mul c.left ⟨[-1], false, none⟩
  let nl := { nl with side := some BSide.left }
  let nr := { nr with side := some BSide.right }
  let (bl, br) ← Border.uncover nl nr
  let a ← Alpha.mk' c.level.rep c.level.value false
  mk' a bl br

/-- `AlphaCut.from_bordersides`: partition the tagged points by side
(Left to the left list, everything else to the right list), wrap both as
covered borders, `uncover`, and construct the cut. -/
def fromBordersides (level : Alpha) (sabs : List SaB) : Except Err AlphaCut := do
  let lefts := (sabs.filter (fun s => s.side = .left)).map (·.coord)
  let rights := (sabs.filter (fun s => ¬ s.side = .left)).map (·.coord)
  let l ← Border.mk' lefts true (some .left)
  let r ← Border.mk' rights true (some .right)
  let (bl, br) ← Border.uncover l r
  mk' level bl br

end AlphaCut

/-- `Tnorm.__post_init__` validation: both levels must share one numeric
representation (`check_and_get_type`), else `TypeKind`. -/
def tnormCheck (a b : Alpha) : Except Err Unit :=
  if a.rep ≠ b.rep then .error .typeErr else .ok ()

/-- `Min.__call__`: Python's `min(a, b)` over `Alpha.__lt__`, i.e. `b`
when `b < a`, else `a`. -/
def minT (a b : Alpha) : Except Err Alpha := do
  tnormCheck a b
  .ok (if Alpha.lt b a then b else a)

/-- The representation-matched constants of `Tnorm._set_zero_one_alpha`. -/
def zeroAlpha (r : Rep) : Alpha := ⟨r, 0, false⟩

/-- The representation-matched `one` of `Tnorm._set_zero_one_alpha`. -/
def oneAlpha (r : Rep) : Alpha := ⟨r, 1, false⟩

/-- `Lukasiewicz.__call__`: compute `a + b - 1` (relaxed), then assign
`small_check = False` (which re-runs the range check), then
`max(zero, v2)` over `Alpha.__gt__`. -/
def lukasiewicz (a b : Alpha) : Except Err Alpha := do
  tnormCheck a b
  let s ← Alpha.add a b
  let v2 ← Alpha.sub s (oneAlpha a.rep)
  let v2 ← Alpha.setSmallCheckFalse v2
  .ok (if Alpha.gt v2 (zeroAlpha a.rep) then v2 else zeroAlpha a.rep)

/-- `FuzzySet` of `fuzzy_set.py`: the level-keyed mapping, modelled as the
list of alpha-cuts in the dictionary's iteration order (descending level
after `_sort_a_cuts`). -/
structure FuzzySet where
  cuts : List AlphaCut
  deriving DecidableEq, Repr

namespace FuzzySet

/-- Membership of a level in the cut map (`check_membership_level`,
`level not in self._alpha_cuts.keys()`): a Python dict lookup keyed on
`Alpha`, whose `__hash__` is the numeric-value hash, so two keys collide
exactly when their values are numerically equal. -/
def hasLevel (cuts : List AlphaCut) (a : Alpha) : Bool :=
  cuts.any (fun c => c.level.value == a.value)

/-- `_sort_a_cuts`: re-sort the map descending by level
(`sorted(..., reverse=True)` over `Alpha.__lt__`, a value comparison). -/
def sortCuts (cuts : List AlphaCut) : List AlphaCut :=
  List.insertionSort (fun c d => d.level.value ≤ c.level.value) cuts

/-- The insertion loop shared by `__init__` and `add_alpha_cut`: each cut
is added only when its level is not already a key, else
`DuplicateLevelKind`. -/
def insertCuts (acc : List AlphaCut) : List AlphaCut → Except Err (List AlphaCut)
  | [] => .ok acc
  | c :: rest =>
    if hasLevel acc c.level then .error .duplicateLevel
    else insertCuts (acc ++ [c]) rest

/-- `_check_alpha_levels_membership`: for every consecutive pair of the
descending-sorted cut list, the higher-level cut must be contained in the
next-lower-level cut, else `ObstructedKind`. -/
def checkLevels : List AlphaCut → Except Err Unit
  | j :: i :: rest =>
    if AlphaCut.contains i j then checkLevels (i :: rest) else .error .obstructed
  | _ => .ok ()

/-- `FuzzySet.__init__`: insert all cuts (duplicate levels rejected),
sort descending, then run the adjacency nesting check. -/
def mk' (cs : List AlphaCut) : Except Err FuzzySet := do
  let m ← insertCuts [] cs
  checkLevels (sortCuts m)
  .ok ⟨sortCuts m⟩

/-- The `all(...)` loop of `FuzzySet.__eq__`: compare the zipped pairs in
order, stopping at the first unequal pair (or the first raised error). -/
def eqPairs : List (AlphaCut × AlphaCut) → Except Err Bool
  | [] => .ok true
  | p :: rest => do
    let e ← AlphaCut.eq p.1 p.2
    if e then eqPairs rest else .ok false

/-- `FuzzySet.__eq__`: `zip` the two cut lists and compare pairwise
(`zip` stops at the shorter list; the lengths are never compared). -/
def eq (a b : FuzzySet) : Except Err Bool :=
  eqPairs (a.cuts.zip b.cuts)

/-- `FuzzySet.add_alpha_cut`, modelled as a state transition: the result
of the call together with the final `_alpha_cuts` contents.  The new cuts
are inserted one by one (duplicate levels abort at once), then the map is
re-sorted, and only then is the nesting check run — an `ObstructedKind`
failure happens after the dictionary was already mutated. -/
def addAlphaCut (fs : FuzzySet) (cs : List AlphaCut) : Except Err Unit × FuzzySet :=
  match go fs.cuts cs with
  | (.error e, m) => (.error e, ⟨m⟩)
  | (.ok _, m) =>
    match checkLevels (sortCuts m) with
    | .error e => (.error e, ⟨sortCuts m⟩)
    | .ok _ => (.ok (), ⟨sortCuts m⟩)
where
  /-- The mutation loop: on a duplicate level the dict keeps the cuts
  inserted so far. -/
  go (acc : List AlphaCut) : List AlphaCut → Except Err Unit × List AlphaCut
    | [] => (Except.ok (), acc)
    | c :: rest =>
      if hasLevel acc c.level then (Except.error Err.duplicateLevel, acc)
      else go (acc ++ [c]) rest

/-- `FuzzySet.remove_alpha_cut`, modelled as a state transition: pops the
cut at the given level, or fails with `NotFoundKind` leaving the map
unchanged. -/
def removeAlphaCut (fs : FuzzySet) (a : Alpha) : Except Err Unit × FuzzySet :=
  if hasLevel fs.cuts a then
    (.ok (), ⟨fs.cuts.filter (fun c => ¬ c.level.value == a.value)⟩)
  else (.error .notFound, fs)

/-- The `defaultdict(list)` accumulation of `add_with_tnorm`: extend the
bucket of an existing key (dict keys collide by numeric value) or append
a fresh key at the end. -/
def bucketAdd (bs : List (Alpha × List SaB)) (k : Alpha) (v : List SaB) :
    List (Alpha × List SaB) :=
  match bs with
  | [] => [(k, v)]
  | (k', v') :: rest =>
    if k'.value == k.value then (k', v' ++ v) :: rest
    else (k', v') :: bucketAdd rest k v

/-- `FuzzySet.add_with_tnorm`: for every pair of cuts (self outer, other
inner) compute the t-norm of the levels and the cartesian border sums,
tag them Left/Right, accumulate the tagged points per resulting level,
then rebuild one cut per bucket via `from_bordersides` and assemble a new
`FuzzySet`. -/
def addWithTnorm (fs other : FuzzySet) (t : Alpha → Alpha → Except Err Alpha) :
    Except Err FuzzySet := do
  let pairs := fs.cuts.flatMap (fun sac => other.cuts.map (fun oac => (sac, oac)))
  let buckets ← pairs.foldlM (fun bs p => do
    let na ← t p.1.level p.2.level
    let nl := { Border.add p.1.left p.2.left with side := some BSide.left }
    let nr := { Border.add p.1.right p.2.right with side := some BSide.right }
    let sl ← nl.getSabList
    let sr ← nr.getSabList
    .ok (bucketAdd bs na (sl ++ sr))) ([] : List (Alpha × List SaB))
  let cutsL ← buckets.mapM (fun b => AlphaCut.fromBordersides b.1 b.2)
  mk' cutsL

end FuzzySet

/-!
Specification-side vocabulary used by the theorems below.  An interval
sequence is a list of `(left, right)` pairs; a valid alpha-cut stores the
lefts and rights of such a sequence in its two borders.
-/

/-- The interval sequence of an alpha-cut: its borders zipped. -/
def intervals (c : AlphaCut) : List (ℚ × ℚ) :=
  c.left.borders.zip c.right.borders

/-- A well-formed interval sequence, as enforced by
`Border.are_left_right` on an uncovered pair: nonnegative lengths,
non-overlapping consecutive intervals, and strictly increasing lefts and
rights (strictness is what `covered = False` records). -/
structure ValidSeq (ps : List (ℚ × ℚ)) : Prop where
  nonneg : ∀ p ∈ ps, p.1 ≤ p.2
  sep : List.Chain' (fun p q => p.2 ≤ q.1) ps
  leftsStrict : List.Chain' (fun p q => p.1 < q.1) ps
  rightsStrict : List.Chain' (fun p q => p.2 < q.2) ps

/-- The tagged point sequence of a valid interval sequence in coordinate
order with Left-before-Right ties: after the opening left of interval
`i`, a strictly separated junction contributes `right i` then
`left (i+1)`, while a touching junction (`right i = left (i+1)`)
contributes `left (i+1)` then `right i`. -/
def chainTag : ℚ → List (ℚ × ℚ) → List SaB
  | r, [] => [⟨.right, r⟩]
  | r, q :: ps =>
    if r < q.1 then ⟨.right, r⟩ :: ⟨.left, q.1⟩ :: chainTag q.2 ps
    else ⟨.left, q.1⟩ :: ⟨.right, r⟩ :: chainTag q.2 ps

/-- The full tagged point sequence of an interval sequence. -/
def seqTag : List (ℚ × ℚ) → List SaB
  | [] => []
  | p :: ps => ⟨.left, p.1⟩ :: chainTag p.2 ps

/-- The left boundaries emitted by the sweep after the opening left, one
per strictly separated junction. -/
def mergedL : ℚ → List (ℚ × ℚ) → List ℚ
  | _, [] => []
  | r, q :: ps => if r < q.1 then q.1 :: mergedL q.2 ps else mergedL q.2 ps

/-- The right boundaries emitted by the sweep, one per strictly separated
junction plus the final right. -/
def mergedR : ℚ → List (ℚ × ℚ) → List ℚ
  | r, [] => [r]
  | r, q :: ps => if r < q.1 then r :: mergedR q.2 ps else mergedR q.2 ps

/-- The left boundaries of the repaired (uncovered) interval sequence. -/
def uLefts : List (ℚ × ℚ) → List ℚ
  | [] => []
  | p :: ps => p.1 :: mergedL p.2 ps

/-- The right boundaries of the repaired (uncovered) interval sequence. -/
def uRights : List (ℚ × ℚ) → List ℚ
  | [] => []
  | p :: ps => mergedR p.2 ps

/-- All junctions strictly separated, starting from a given right end. -/
def allSep : ℚ → List (ℚ × ℚ) → Prop
  | _, [] => True
  | r, q :: ps => r < q.1 ∧ allSep q.2 ps

/-- Point reflection of an interval sequence through 0: each interval
`(l, r)` becomes `(-r, -l)` and the order is reversed. -/
def pinv (ps : List (ℚ × ℚ)) : List (ℚ × ℚ) :=
  (ps.map (fun p => (-p.2, -p.1))).reverse

/-! ### Helper lemmas -/

theorem zip_self_append {α : Type _} (l t : List α) : l.zip (l ++ t) = l.zip l := by
  induction l with
  | nil => rfl
  | cons x xs ih => simpa [List.zip_cons_cons] using ih

theorem cut_eq_self (c : AlphaCut) : AlphaCut.eq c c = .ok true := by
  simp [AlphaCut.eq, Alpha.eq]

theorem eqPairs_self (l : List AlphaCut) : FuzzySet.eqPairs (l.zip l) = .ok true := by
  induction l with
  | nil => rfl
  | cons c cs ih =>
    simp only [List.zip_cons_cons, FuzzySet.eqPairs, cut_eq_self, ok_bind, if_true]
    exact ih

theorem checkLevels_cases (l : List AlphaCut) :
    FuzzySet.checkLevels l = .ok () ∨ FuzzySet.checkLevels l = .error .obstructed := by
  induction l with
  | nil => exact Or.inl rfl
  | cons j rest ih =>
    cases rest with
    | nil => exact Or.inl rfl
    | cons i rest' =>
      by_cases hc : AlphaCut.contains i j = true
      · simpa [FuzzySet.checkLevels, hc] using ih
      · exact Or.inr (by simp [FuzzySet.checkLevels, hc])

theorem sabLE_coord_le {a b : SaB} (h : sabLE a b) : a.coord ≤ b.coord := by
  rcases h with h | ⟨h, _⟩
  · exact le_of_lt h
  · exact le_of_eq h

theorem sabLE_of_left {a b : SaB} (ha : a.side = .left) (h : a.coord ≤ b.coord) :
    sabLE a b := by
  rcases lt_or_eq_of_le h with h' | h'
  · exact Or.inl h'
  · exact Or.inr ⟨h', Or.inl ha⟩

theorem sabLE_right_dest {a b : SaB} (ha : a.side = .right) (h : sabLE a b) :
    a.coord < b.coord ∨ (a.coord = b.coord ∧ b.side = .right) := by
  rcases h with h | ⟨h, hd⟩
  · exact Or.inl h
  · rcases hd with hl | hr
    · rw [ha] at hl
      cases hl
    · exact Or.inr ⟨h, hr⟩

instance : IsTrans SaB sabLE where
  trans a b c hab hbc := by
    rcases hab with h1 | ⟨h1, d1⟩ <;> rcases hbc with h2 | ⟨h2, d2⟩
    · exact Or.inl (lt_trans h1 h2)
    · exact Or.inl (h2 ▸ h1)
    · exact Or.inl (h1 ▸ h2)
    · refine Or.inr ⟨h1.trans h2, ?_⟩
      rcases d1 with hl | hr
      · exact Or.inl hl
      · rcases d2 with hl' | hr'
        · rw [hr] at hl'
          cases hl'
        · exact Or.inr hr'

instance : IsTotal SaB sabLE where
  total a b := by
    rcases lt_trichotomy a.coord b.coord with h | h | h
    · exact Or.inl (Or.inl h)
    · cases ha : a.side
      · exact Or.inl (Or.inr ⟨h, Or.inl ha⟩)
      · cases hb : b.side
        · exact Or.inr (Or.inr ⟨h.symm, Or.inl hb⟩)
        · exact Or.inl (Or.inr ⟨h, Or.inr hb⟩)
    · exact Or.inr (Or.inl h)

instance : IsAntisymm SaB sabLE where
  antisymm a b hab hba := by
    have hco : a.coord = b.coord := by
      rcases hab with h1 | ⟨h1, _⟩ <;> rcases hba with h2 | ⟨h2, _⟩ <;>
        first
          | exact absurd h2 (not_lt_of_gt h1)
          | exact h1
          | exact h2.symm
    rcases hab with h1 | ⟨_, d1⟩
    · exact absurd hco (ne_of_lt h1)
    · rcases hba with h2 | ⟨_, d2⟩
      · exact absurd hco.symm (ne_of_lt h2)
      · have hside : a.side = b.side := by
          rcases d1 with hl | hr
          · rcases d2 with hl' | hr'
            · rw [hl, hl']
            · rw [hl] at hr'
              cases hr'
          · rcases d2 with hl' | hr'
            · rw [hl'] at hr
              cases hr
            · rw [hr, hr']
        cases a
        cases b
        simp_all

/-- Invariant lemma for the sweep loop: on a `sabLE`-sorted input with a
nonnegative counter and consistent accumulators, a successful sweep
returns strictly increasing boundary lists whose length difference is
forced by the final counter value. -/
theorem sweep_ok : ∀ (rest : List SaB) (c : Int) (nl nr : List ℚ),
    rest.Pairwise sabLE →
    0 ≤ c →
    nl.Pairwise (· < ·) → nr.Pairwise (· < ·) →
    ((nl.length : Int) = nr.length + (if c = 0 then 0 else 1)) →
    (∀ y ∈ nl, ∀ s ∈ rest, y ≤ s.coord) →
    (∀ y ∈ nr, ∀ s ∈ rest, y < s.coord ∨ (y = s.coord ∧ s.side = .right)) →
    (0 < c → ∀ y ∈ nr, ∃ z ∈ nl, y < z) →
    (c = 0 → ∀ z ∈ nl, ∃ y ∈ nr, z ≤ y) →
    ∀ nl' nr', sweep rest c nl nr = some (nl', nr') →
      nl'.Pairwise (· < ·) ∧ nr'.Pairwise (· < ·) ∧
      ((nl'.length : Int) = nr'.length +
        (if c + (rest.countP (fun s => s.side == .left)) -
            (rest.countP (fun s => s.side == .right)) = 0 then 0 else 1)) ∧
      (∃ t, nl' = nl ++ t) ∧ (∃ t, nr' = nr ++ t)
  | [], c, nl, nr, _, _, hnl, hnr, hlen, _, _, _, _, nl', nr', hsweep => by
    simp only [sweep, Option.some.injEq, Prod.mk.injEq] at hsweep
    obtain ⟨h1, h2⟩ := hsweep
    subst h1
    subst h2
    refine ⟨hnl, hnr, ?_, ⟨[], by simp⟩, ⟨[], by simp⟩⟩
    simpa using hlen
  | s :: rest, c, nl, nr, hsort, hc, hnl, hnr, hlen, h4, h5, h6, h7, nl', nr', hsweep => by
    obtain ⟨hs_rest, hrest⟩ := List.pairwise_cons.mp hsort
    obtain ⟨sside, scoord⟩ := s
    cases sside with
    | left =>
      simp only [sweep] at hsweep
      have hcount :
          (c + 1) + (rest.countP (fun s => s.side == BSide.left)) -
              (rest.countP (fun s => s.side == BSide.right)) =
            c + ((⟨BSide.left, scoord⟩ :: rest : List SaB).countP
                  (fun s => s.side == BSide.left)) -
              ((⟨BSide.left, scoord⟩ :: rest : List SaB).countP
                  (fun s => s.side == BSide.right)) := by
        simp [List.countP_cons]
        ring
      by_cases hc0 : c = 0
      · subst hc0
        simp only [zero_add, if_pos rfl] at hsweep
        have hcross : ∀ z ∈ nl, z < scoord := by
          intro z hz
          obtain ⟨y, hy, hzy⟩ := h7 rfl z hz
          have := h5 y hy ⟨BSide.left, scoord⟩ (List.mem_cons_self _ _)
          rcases this with h | ⟨_, hside⟩
          · exact lt_of_le_of_lt hzy h
          · cases hside
        have hres := sweep_ok rest 1 (nl ++ [scoord]) nr hrest (by norm_num)
          (by
            rw [List.pairwise_append]
            exact ⟨hnl, List.pairwise_singleton _ _,
              fun a ha b hb => by rw [List.mem_singleton] at hb; subst hb; exact hcross a ha⟩)
          hnr
          (by simp at hlen ⊢; omega)
          (by
            intro y hy u hu
            rcases List.mem_append.mp hy with hy' | hy'
            · exact h4 y hy' u (List.mem_cons_of_mem _ hu)
            · rw [List.mem_singleton] at hy'
              subst hy'
              exact sabLE_coord_le (hs_rest u hu))
          (by
            intro y hy u hu
            exact h5 y hy u (List.mem_cons_of_mem _ hu))
          (by
            intro _ y hy
            refine ⟨scoord, List.mem_append_right _ (List.mem_singleton_self _), ?_⟩
            have := h5 y hy ⟨BSide.left, scoord⟩ (List.mem_cons_self _ _)
            rcases this with h | ⟨_, hside⟩
            · exact h
            · cases hside)
          (by intro h; cases h)
          nl' nr' hsweep
        obtain ⟨p1, p2, p3, ⟨t1, ht1⟩, ⟨t2, ht2⟩⟩ := hres
        refine ⟨p1, p2, ?_, ⟨scoord :: t1, by simpa [List.append_assoc] using ht1⟩,
          ⟨t2, ht2⟩⟩
        rw [← hcount]
        simpa using p3
      · have hc1 : c + 1 ≠ 1 := by omega
        simp only [if_neg hc1] at hsweep
        have hres := sweep_ok rest (c + 1) nl nr hrest (by omega) hnl hnr
          (by
            rw [if_neg hc0] at hlen
            rw [if_neg (by omega : ¬ c + 1 = 0)]
            exact hlen)
          (fun y hy u hu => h4 y hy u (List.mem_cons_of_mem _ hu))
          (fun y hy u hu => h5 y hy u (List.mem_cons_of_mem _ hu))
          (fun _ => h6 (by omega))
          (by intro h; omega)
          nl' nr' hsweep
        obtain ⟨p1, p2, p3, pt1, pt2⟩ := hres
        refine ⟨p1, p2, ?_, pt1, pt2⟩
        rw [← hcount]
        exact p3
    | right =>
      simp only [sweep] at hsweep
      by_cases hneg : c - 1 < 0
      · rw [if_pos hneg] at hsweep
        cases hsweep
      · rw [if_neg hneg] at hsweep
        have hc1 : 1 ≤ c := by omega
        have hcount :
            (c - 1) + (rest.countP (fun s => s.side == BSide.left)) -
                (rest.countP (fun s => s.side == BSide.right)) =
              c + ((⟨BSide.right, scoord⟩ :: rest : List SaB).countP
                    (fun s => s.side == BSide.left)) -
                ((⟨BSide.right, scoord⟩ :: rest : List SaB).countP
                    (fun s => s.side == BSide.right)) := by
          simp [List.countP_cons]
          ring
        by_cases hz : c - 1 = 0
        · simp only [if_pos hz] at hsweep
          have hcross : ∀ y ∈ nr, y < scoord := by
            intro y hy
            obtain ⟨z, hz', hyz⟩ := h6 (by omega) y hy
            exact lt_of_lt_of_le hyz (h4 z hz' ⟨BSide.right, scoord⟩ (List.mem_cons_self _ _))
          have hres := sweep_ok rest (c - 1) nl (nr ++ [scoord]) hrest (by omega) hnl
            (by
              rw [List.pairwise_append]
              exact ⟨hnr, List.pairwise_singleton _ _,
                fun a ha b hb => by rw [List.mem_singleton] at hb; subst hb; exact hcross a ha⟩)
            (by
              rw [if_neg (by omega : ¬ c = 0)] at hlen
              rw [if_pos hz]
              simp at hlen ⊢
              omega)
            (fun y hy u hu => h4 y hy u (List.mem_cons_of_mem _ hu))
            (by
              intro y hy u hu
              rcases List.mem_append.mp hy with hy' | hy'
              · exact h5 y hy' u (List.mem_cons_of_mem _ hu)
              · rw [List.mem_singleton] at hy'
                subst hy'
                exact sabLE_right_dest rfl (hs_rest u hu))
            (by intro h; omega)
            (by
              intro _ z hz'
              exact ⟨scoord, List.mem_append_right _ (List.mem_singleton_self _),
                h4 z hz' ⟨BSide.right, scoord⟩ (List.mem_cons_self _ _)⟩)
            nl' nr' hsweep
          obtain ⟨p1, p2, p3, ⟨t1, ht1⟩, ⟨t2, ht2⟩⟩ := hres
          refine ⟨p1, p2, ?_, ⟨t1, ht1⟩,
            ⟨scoord :: t2, by simpa [List.append_assoc] using ht2⟩⟩
          rw [← hcount]
          exact p3
        · simp only [if_neg hz] at hsweep
          have hres := sweep_ok rest (c - 1) nl nr hrest (by omega) hnl hnr
            (by
              rw [if_neg (by omega : ¬ c = 0)] at hlen
              rw [if_neg hz]
              exact hlen)
            (fun y hy u hu => h4 y hy u (List.mem_cons_of_mem _ hu))
            (fun y hy u hu => h5 y hy u (List.mem_cons_of_mem _ hu))
            (fun _ => h6 (by omega))
            (by intro h; omega)
            nl' nr' hsweep
          obtain ⟨p1, p2, p3, pt1, pt2⟩ := hres
          refine ⟨p1, p2, ?_, pt1, pt2⟩
          rw [← hcount]
          exact p3

theorem chainTag_perm : ∀ (ps : List (ℚ × ℚ)) (r : ℚ),
    (chainTag r ps).Perm
      (⟨.right, r⟩ :: (ps.map (fun p => (⟨.left, p.1⟩ : SaB)) ++
        ps.map (fun p => (⟨.right, p.2⟩ : SaB))))
  | [], r => by simp [chainTag]
  | q :: ps, r => by
    have ih := chainTag_perm ps q.2
    have hmid : ((⟨.left, q.1⟩ : SaB) :: chainTag q.2 ps).Perm
        ((⟨.left, q.1⟩ : SaB) :: ps.map (fun p => (⟨.left, p.1⟩ : SaB)) ++
          ⟨.right, q.2⟩ :: ps.map (fun p => (⟨.right, p.2⟩ : SaB))) :=
      (ih.cons _).trans (List.Perm.cons _ List.perm_middle.symm)
    have hgoal : ((q :: ps).map (fun p => (⟨.left, p.1⟩ : SaB)) ++
        (q :: ps).map (fun p => (⟨.right, p.2⟩ : SaB))) =
        ((⟨.left, q.1⟩ : SaB) :: ps.map (fun p => (⟨.left, p.1⟩ : SaB)) ++
          ⟨.right, q.2⟩ :: ps.map (fun p => (⟨.right, p.2⟩ : SaB))) := by
      simp
    by_cases hb : r < q.1
    · rw [chainTag, if_pos hb, hgoal]
      exact hmid.cons _
    · rw [chainTag, if_neg hb, hgoal]
      exact (List.Perm.swap ⟨.right, r⟩ ⟨.left, q.1⟩ (chainTag q.2 ps)).trans
        (hmid.cons _)

theorem seqTag_perm (ps : List (ℚ × ℚ)) :
    (seqTag ps).Perm (ps.map (fun p => (⟨.left, p.1⟩ : SaB)) ++
      ps.map (fun p => (⟨.right, p.2⟩ : SaB))) := by
  cases ps with
  | nil => simp [seqTag]
  | cons p ps =>
    rw [seqTag]
    have h1 : ((⟨.left, p.1⟩ : SaB) :: chainTag p.2 ps).Perm
        ((⟨.left, p.1⟩ : SaB) :: ⟨.right, p.2⟩ ::
          (ps.map (fun q => (⟨.left, q.1⟩ : SaB)) ++
            ps.map (fun q => (⟨.right, q.2⟩ : SaB)))) :=
      (chainTag_perm ps p.2).cons _
    have h2 : ((⟨.left, p.1⟩ : SaB) :: ⟨.right, p.2⟩ ::
        (ps.map (fun q => (⟨.left, q.1⟩ : SaB)) ++
          ps.map (fun q => (⟨.right, q.2⟩ : SaB)))).Perm
        ((⟨.left, p.1⟩ : SaB) :: (ps.map (fun q => (⟨.left, q.1⟩ : SaB)) ++
          ⟨.right, p.2⟩ :: ps.map (fun q => (⟨.right, q.2⟩ : SaB)))) :=
      List.Perm.cons _ List.perm_middle.symm
    have hgoal : ((p :: ps).map (fun q => (⟨.left, q.1⟩ : SaB)) ++
        (p :: ps).map (fun q => (⟨.right, q.2⟩ : SaB))) =
        ((⟨.left, p.1⟩ : SaB) :: (ps.map (fun q => (⟨.left, q.1⟩ : SaB)) ++
          ⟨.right, p.2⟩ :: ps.map (fun q => (⟨.right, q.2⟩ : SaB)))) := by
      simp
    rw [hgoal]
    exact h1.trans h2

theorem chainTag_head_coord : ∀ (ps : List (ℚ × ℚ)) (r : ℚ),
    ∀ h ∈ (chainTag r ps).head?, r = h.coord ∨ ∃ q ∈ ps.head?, h.coord = q.1
  | [], r => by simp [chainTag]
  | q :: ps, r => by
    by_cases hb : r < q.1 <;> simp [chainTag, hb]

theorem chainTag_chain : ∀ (ps : List (ℚ × ℚ)) (r : ℚ),
    (∀ p ∈ ps, p.1 ≤ p.2) →
    List.Chain' (fun p q => p.2 ≤ q.1) ps →
    List.Chain' (fun p q => p.2 < q.2) ps →
    (∀ q ∈ ps.head?, r ≤ q.1) →
    (∀ q ∈ ps.head?, r < q.2) →
    List.Chain' sabLE (chainTag r ps) ∧
      ∀ h ∈ (chainTag r ps).head?, r ≤ h.coord
  | [], r => by
    intro _ _ _ _ _
    exact ⟨List.chain'_singleton _, by simp [chainTag]⟩
  | q :: ps, r => by
    intro hlr hjun hstR hr1 hr2
    have hq1 : r ≤ q.1 := hr1 q rfl
    have hq2 : r < q.2 := hr2 q rfl
    have hqlr : q.1 ≤ q.2 := hlr q (List.mem_cons_self _ _)
    obtain ⟨hrec, hrechead⟩ := chainTag_chain ps q.2
      (fun p hp => hlr p (List.mem_cons_of_mem _ hp))
      hjun.tail hstR.tail
      (fun p hp => (List.chain'_cons'.mp hjun).1 p hp)
      (fun p hp => (List.chain'_cons'.mp hstR).1 p hp)
    have hheadge : ∀ h ∈ (chainTag q.2 ps).head?, q.2 ≤ h.coord := hrechead
    by_cases hb : r < q.1
    · rw [chainTag, if_pos hb]
      refine ⟨?_, by simp⟩
      rw [List.chain'_cons]
      refine ⟨Or.inl hb, ?_⟩
      rw [List.chain'_cons']
      refine ⟨?_, hrec⟩
      intro h hh
      exact sabLE_of_left rfl (le_trans hqlr (hheadge h hh))
    · rw [chainTag, if_neg hb]
      refine ⟨?_, by simpa using hq1⟩
      rw [List.chain'_cons]
      refine ⟨sabLE_of_left rfl (not_lt.mp hb), ?_⟩
      rw [List.chain'_cons']
      refine ⟨?_, hrec⟩
      intro h hh
      exact Or.inl (lt_of_lt_of_le hq2 (hheadge h hh))

theorem seqTag_chain (ps : List (ℚ × ℚ))
    (hlr : ∀ p ∈ ps, p.1 ≤ p.2)
    (hjun : List.Chain' (fun p q => p.2 ≤ q.1) ps)
    (hstR : List.Chain' (fun p q => p.2 < q.2) ps) :
    List.Chain' sabLE (seqTag ps) := by
  cases ps with
  | nil => exact List.chain'_nil
  | cons p ps =>
    rw [seqTag, List.chain'_cons']
    obtain ⟨hrec, hrechead⟩ := chainTag_chain ps p.2
      (fun q hq => hlr q (List.mem_cons_of_mem _ hq))
      hjun.tail hstR.tail
      (fun q hq => (List.chain'_cons'.mp hjun).1 q hq)
      (fun q hq => (List.chain'_cons'.mp hstR).1 q hq)
    refine ⟨?_, hrec⟩
    intro h hh
    exact sabLE_of_left rfl
      (le_trans (hlr p (List.mem_cons_self _ _)) (hrechead h hh))

theorem sweep_chainTag : ∀ (ps : List (ℚ × ℚ)) (r : ℚ) (nl nr : List ℚ),
    sweep (chainTag r ps) 1 nl nr = some (nl ++ mergedL r ps, nr ++ mergedR r ps)
  | [], r, nl, nr => by simp [chainTag, sweep, mergedL, mergedR]
  | q :: ps, r, nl, nr => by
    by_cases hb : r < q.1
    · rw [chainTag, if_pos hb, mergedL, if_pos hb, mergedR, if_pos hb]
      show sweep (⟨BSide.right, r⟩ :: ⟨BSide.left, q.1⟩ :: chainTag q.2 ps) 1 nl nr = _
      simp only [sweep]
      norm_num
      rw [sweep_chainTag ps q.2 (nl ++ [q.1]) (nr ++ [r])]
      simp
    · rw [chainTag, if_neg hb, mergedL, if_neg hb, mergedR, if_neg hb]
      show sweep (⟨BSide.left, q.1⟩ :: ⟨BSide.right, r⟩ :: chainTag q.2 ps) 1 nl nr = _
      simp only [sweep]
      norm_num
      exact sweep_chainTag ps q.2 nl nr

theorem mergedL_sublist : ∀ (ps : List (ℚ × ℚ)) (r : ℚ),
    (mergedL r ps).Sublist (ps.map (·.1))
  | [], _ => by simp [mergedL]
  | q :: ps, r => by
    by_cases hb : r < q.1
    · rw [mergedL, if_pos hb]
      simpa using (mergedL_sublist ps q.2).cons₂ q.1
    · rw [mergedL, if_neg hb]
      simpa using (mergedL_sublist ps q.2).cons q.1

theorem mergedR_sublist : ∀ (ps : List (ℚ × ℚ)) (r : ℚ),
    (mergedR r ps).Sublist (r :: ps.map (·.2))
  | [], _ => by simp [mergedR]
  | q :: ps, r => by
    by_cases hb : r < q.1
    · rw [mergedR, if_pos hb]
      exact (mergedR_sublist ps q.2).cons₂ r
    · rw [mergedR, if_neg hb]
      refine (mergedR_sublist ps q.2).trans ?_
      simp

theorem mergedR_ne : ∀ (ps : List (ℚ × ℚ)) (r : ℚ), mergedR r ps ≠ []
  | [], r => by simp [mergedR]
  | q :: ps, r => by
    by_cases hb : r < q.1
    · rw [mergedR, if_pos hb]
      simp
    · rw [mergedR, if_neg hb]
      exact mergedR_ne ps q.2

theorem mergedR_length : ∀ (ps : List (ℚ × ℚ)) (r : ℚ),
    (mergedR r ps).length = (mergedL r ps).length + 1
  | [], r => by simp [mergedR, mergedL]
  | q :: ps, r => by
    by_cases hb : r < q.1 <;>
      simp [mergedR, mergedL, hb, mergedR_length ps q.2]

theorem mergedL_length_le : ∀ (ps : List (ℚ × ℚ)) (r : ℚ),
    (mergedL r ps).length ≤ ps.length
  | [], r => by simp [mergedL]
  | q :: ps, r => by
    by_cases hb : r < q.1
    · rw [mergedL, if_pos hb]
      simpa using mergedL_length_le ps q.2
    · rw [mergedL, if_neg hb]
      exact le_trans (mergedL_length_le ps q.2) (by simp)

theorem mergedL_length_lt : ∀ (ps : List (ℚ × ℚ)) (r : ℚ),
    ¬ allSep r ps → (mergedL r ps).length < ps.length
  | [], r => by simp [allSep]
  | q :: ps, r => by
    intro hsep
    by_cases hb : r < q.1
    · rw [mergedL, if_pos hb]
      have : ¬ allSep q.2 ps := fun h => hsep ⟨hb, h⟩
      simpa using mergedL_length_lt ps q.2 this
    · rw [mergedL, if_neg hb]
      exact lt_of_le_of_lt (mergedL_length_le ps q.2) (by simp)

theorem mergedL_of_allSep : ∀ (ps : List (ℚ × ℚ)) (r : ℚ),
    allSep r ps → mergedL r ps = ps.map (·.1)
  | [], r, _ => by simp [mergedL]
  | q :: ps, r, h => by
    rw [mergedL, if_pos h.1, mergedL_of_allSep ps q.2 h.2]
    simp

theorem mergedR_of_allSep : ∀ (ps : List (ℚ × ℚ)) (r : ℚ),
    allSep r ps → mergedR r ps = r :: ps.map (·.2)
  | [], r, _ => by simp [mergedR]
  | q :: ps, r, h => by
    rw [mergedR, if_pos h.1, mergedR_of_allSep ps q.2 h.2]
    simp

theorem allSep_iff_chain : ∀ (ps : List (ℚ × ℚ)) (q0 : ℚ × ℚ),
    allSep q0.2 ps ↔ List.Chain' (fun p q => p.2 < q.1) (q0 :: ps)
  | [], q0 => by simp [allSep]
  | q :: ps, q0 => by
    rw [List.chain'_cons, allSep, allSep_iff_chain ps q]

theorem strictSorted_iff_chain : ∀ l : List ℚ, strictSorted l = true ↔ List.Chain' (· < ·) l
  | [] => by simp [strictSorted]
  | [a] => by simp [strictSorted]
  | a :: b :: rest => by
    rw [List.chain'_cons]
    simp only [strictSorted, Bool.and_eq_true, decide_eq_true_eq,
      strictSorted_iff_chain (b :: rest)]

theorem strictSorted_of_pairwise {l : List ℚ} (h : l.Pairwise (· < ·)) :
    strictSorted l = true :=
  (strictSorted_iff_chain l).mpr (List.chain'_iff_pairwise.mpr h)

/-- `Border.uncover` on any permutation of the lefts and rights of a
well-formed interval sequence returns exactly the repaired boundary lists
`uLefts`/`uRights` (touching junctions merged), as fresh uncovered
`Left`/`Right` borders. -/
theorem uncover_perm (ps : List (ℚ × ℚ)) (hne : ps ≠ [])
    (hlr : ∀ p ∈ ps, p.1 ≤ p.2)
    (hjun : List.Chain' (fun p q => p.2 ≤ q.1) ps)
    (hstL : List.Chain' (fun p q => p.1 < q.1) ps)
    (hstR : List.Chain' (fun p q => p.2 < q.2) ps)
    (lefts rights : List ℚ) (cl cr : Bool)
    (hpl : lefts.Perm (ps.map (·.1)))
    (hpr : rights.Perm (ps.map (·.2))) :
    Border.uncover ⟨lefts, cl, some .left⟩ ⟨rights, cr, some .right⟩ =
      .ok (⟨uLefts ps, false, some .left⟩, ⟨uRights ps, false, some .right⟩) := by
  obtain ⟨p0, ps', rfl⟩ : ∃ p0 ps', ps = p0 :: ps' := by
    cases ps with
    | nil => exact absurd rfl hne
    | cons a l => exact ⟨a, l, rfl⟩
  unfold Border.uncover
  have hlenl : lefts.length = (p0 :: ps').length := by simpa using hpl.length_eq
  have hlenr : rights.length = (p0 :: ps').length := by simpa using hpr.length_eq
  rw [if_neg (by simp [hlenl, hlenr])]
  simp only [Border.getSabList, ok_bind]
  have hopsperm : ((lefts.map fun c => (⟨BSide.left, c⟩ : SaB)) ++
      (rights.map fun c => (⟨BSide.right, c⟩ : SaB))).Perm (seqTag (p0 :: ps')) := by
    refine List.Perm.trans (List.Perm.append (hpl.map _) (hpr.map _)) ?_
    rw [List.map_map, List.map_map]
    exact (seqTag_perm (p0 :: ps')).symm
  have hsorted_seq : List.Pairwise sabLE (seqTag (p0 :: ps')) :=
    List.chain'_iff_pairwise.mp (seqTag_chain _ hlr hjun hstR)
  have hS : List.insertionSort sabLE ((lefts.map fun c => (⟨BSide.left, c⟩ : SaB)) ++
      (rights.map fun c => (⟨BSide.right, c⟩ : SaB))) = seqTag (p0 :: ps') :=
    List.eq_of_perm_of_sorted ((List.perm_insertionSort _ _).trans hopsperm)
      (List.sorted_insertionSort _ _) hsorted_seq
  rw [hS]
  have hsweep : sweep (seqTag (p0 :: ps')) 0 [] [] =
      some (uLefts (p0 :: ps'), uRights (p0 :: ps')) := by
    rw [seqTag]
    show sweep (⟨BSide.left, p0.1⟩ :: chainTag p0.2 ps') 0 [] [] = _
    simp only [sweep]
    norm_num
    rw [sweep_chainTag ps' p0.2 [p0.1] []]
    simp [uLefts, uRights]
  rw [hsweep]
  have hpwL : (uLefts (p0 :: ps')).Pairwise (· < ·) := by
    have hmap : ((p0 :: ps').map (·.1)).Pairwise (· < ·) := by
      rw [← List.chain'_iff_pairwise, List.chain'_map]
      exact hstL
    refine List.Pairwise.sublist ?_ hmap
    simpa [uLefts] using (mergedL_sublist ps' p0.2).cons₂ p0.1
  have hpwR : (uRights (p0 :: ps')).Pairwise (· < ·) := by
    have hmap : ((p0 :: ps').map (·.2)).Pairwise (· < ·) := by
      rw [← List.chain'_iff_pairwise, List.chain'_map]
      exact hstR
    refine List.Pairwise.sublist ?_ hmap
    simpa [uRights] using mergedR_sublist ps' p0.2
  have hneL : uLefts (p0 :: ps') ≠ [] := by simp [uLefts]
  have hneR : uRights (p0 :: ps') ≠ [] := by
    simpa [uRights] using mergedR_ne ps' p0.2
  simp [Border.mk', hneL, hneR, strictSorted_of_pairwise hpwL,
    strictSorted_of_pairwise hpwR]

theorem pinv_ne {ps : List (ℚ × ℚ)} (h : ps ≠ []) : pinv ps ≠ [] := by
  simp [pinv]
  exact h

theorem pinv_pinv (ps : List (ℚ × ℚ)) : pinv (pinv ps) = ps := by
  simp [pinv, List.map_reverse, List.map_map, Function.comp_def]

theorem pinv_hlr {ps : List (ℚ × ℚ)} (h : ∀ p ∈ ps, p.1 ≤ p.2) :
    ∀ p ∈ pinv ps, p.1 ≤ p.2 := by
  intro p hp
  rw [pinv, List.mem_reverse, List.mem_map] at hp
  obtain ⟨q, hq, rfl⟩ := hp
  simpa using h q hq

theorem pinv_jun {ps : List (ℚ × ℚ)}
    (h : List.Chain' (fun p q => p.2 ≤ q.1) ps) :
    List.Chain' (fun p q => p.2 ≤ q.1) (pinv ps) := by
  rw [pinv, List.chain'_reverse, List.chain'_map]
  refine List.Chain'.imp ?_ h
  intro a b hab
  simpa [flip] using hab

theorem pinv_sep {ps : List (ℚ × ℚ)}
    (h : List.Chain' (fun p q => p.2 < q.1) ps) :
    List.Chain' (fun p q => p.2 < q.1) (pinv ps) := by
  rw [pinv, List.chain'_reverse, List.chain'_map]
  refine List.Chain'.imp ?_ h
  intro a b hab
  simpa [flip] using hab

theorem pinv_stL {ps : List (ℚ × ℚ)}
    (h : List.Chain' (fun p q => p.2 < q.2) ps) :
    List.Chain' (fun p q => p.1 < q.1) (pinv ps) := by
  rw [pinv, List.chain'_reverse, List.chain'_map]
  refine List.Chain'.imp ?_ h
  intro a b hab
  simpa [flip] using hab

theorem pinv_stR {ps : List (ℚ × ℚ)}
    (h : List.Chain' (fun p q => p.1 < q.1) ps) :
    List.Chain' (fun p q => p.2 < q.2) (pinv ps) := by
  rw [pinv, List.chain'_reverse, List.chain'_map]
  refine List.Chain'.imp ?_ h
  intro a b hab
  simpa [flip] using hab

theorem uLefts_of_sep {ps : List (ℚ × ℚ)}
    (hsep : List.Chain' (fun p q => p.2 < q.1) ps) : uLefts ps = ps.map (·.1) := by
  cases ps with
  | nil => rfl
  | cons q0 qs =>
    rw [uLefts, mergedL_of_allSep qs q0.2 ((allSep_iff_chain qs q0).mpr hsep)]
    simp

theorem uRights_of_sep {ps : List (ℚ × ℚ)}
    (hsep : List.Chain' (fun p q => p.2 < q.1) ps) : uRights ps = ps.map (·.2) := by
  cases ps with
  | nil => rfl
  | cons q0 qs =>
    rw [uRights, mergedR_of_allSep qs q0.2 ((allSep_iff_chain qs q0).mpr hsep)]
    simp

theorem zip_self_all (ps : List (ℚ × ℚ)) (h : ∀ p ∈ ps, p.1 ≤ p.2) :
    (((ps.map (·.1)).zip (ps.map (·.2))).all fun p => decide (p.1 ≤ p.2)) = true := by
  rw [List.zip_map']
  rw [List.all_map]
  rw [List.all_eq_true]
  intro p hp
  simpa using h p hp

theorem adj_all : ∀ ps : List (ℚ × ℚ),
    List.Chain' (fun p q => p.2 ≤ q.1) ps →
    ((((ps.map (·.1)).tail).zip ((ps.map (·.2)).dropLast)).all
      fun p => decide (p.2 ≤ p.1)) = true
  | [] => by simp
  | [p] => by simp
  | p :: q :: rest => by
    intro hch
    have ih := adj_all (q :: rest) hch.tail
    have hpq : p.2 ≤ q.1 := (List.chain'_cons.mp hch).1
    simp only [List.map_cons, List.tail_cons] at ih ⊢
    rw [List.dropLast_cons₂, List.zip_cons_cons, List.all_cons, ih]
    simpa using hpq

/-- `Border.are_left_right` accepts the lefts and rights of a well-formed
interval sequence. -/
theorem areLeftRight_ok (ps : List (ℚ × ℚ))
    (hlr : ∀ p ∈ ps, p.1 ≤ p.2)
    (hjun : List.Chain' (fun p q => p.2 ≤ q.1) ps) :
    Border.areLeftRight ⟨ps.map (·.1), false, some .left⟩
      ⟨ps.map (·.2), false, some .right⟩ = .ok () := by
  unfold Border.areLeftRight
  rw [if_neg (by simp)]
  rw [if_neg (by simp [zip_self_all ps hlr])]
  rw [if_neg (by simp [adj_all ps hjun])]
  rw [if_neg (by simp)]

theorem flatMap_singleton_map {α β : Type _} (f : α → β) :
    ∀ l : List α, (l.flatMap fun x => [f x]) = l.map f
  | [] => rfl
  | a :: l => by
    rw [List.flatMap_cons, flatMap_singleton_map f l]
    rfl

theorem flatMap_mul_neg_one (l : List ℚ) :
    (l.flatMap fun x => [x * (-1 : ℚ)]) = l.map (fun x => -x) := by
  rw [flatMap_singleton_map (fun x => x * (-1 : ℚ)) l]
  exact List.map_congr_left (fun x _ => mul_neg_one x)

/-- `AlphaCut.invert` on a strictly separated valid cut: the repaired
result is exactly the reflected interval sequence `pinv`. -/
theorem invert_sep (rep : Rep) (v : ℚ) (hv0 : 0 ≤ v) (hv1 : v ≤ 1)
    (ps : List (ℚ × ℚ)) (hne : ps ≠ [])
    (hlr : ∀ p ∈ ps, p.1 ≤ p.2)
    (hsep : List.Chain' (fun p q => p.2 < q.1) ps)
    (hstL : List.Chain' (fun p q => p.1 < q.1) ps)
    (hstR : List.Chain' (fun p q => p.2 < q.2) ps) :
    AlphaCut.invert ⟨⟨rep, v, false⟩, ⟨ps.map (·.1), false, some .left⟩,
        ⟨ps.map (·.2), false, some .right⟩⟩ =
      .ok ⟨⟨rep, v, false⟩, ⟨(pinv ps).map (·.1), false, some .left⟩,
        ⟨(pinv ps).map (·.2), false, some .right⟩⟩ := by
  have hjun : List.Chain' (fun p q => p.2 ≤ q.1) ps :=
    List.Chain'.imp (fun a b hab => le_of_lt hab) hsep
  unfold AlphaCut.invert
  rw [Border.mul, if_neg (by simp)]
  rw [ok_bind, Border.mul, if_neg (by simp)]
  rw [ok_bind]
  simp only [List.map_cons, List.map_nil, flatMap_mul_neg_one]
  have huncover := uncover_perm (pinv ps) (pinv_ne hne) (pinv_hlr hlr)
    (pinv_jun hjun) (pinv_stL hstR) (pinv_stR hstL)
    ((ps.map (·.2)).map (fun x => -x)) ((ps.map (·.1)).map (fun x => -x)) true true
    (by
      rw [List.map_map, pinv, List.map_reverse, List.map_map]
      exact (List.reverse_perm _).symm)
    (by
      rw [List.map_map, pinv, List.map_reverse, List.map_map]
      exact (List.reverse_perm _).symm)
  rw [huncover, ok_bind]
  rw [Alpha.mk', if_neg (by simp [hv0, hv1])]
  rw [ok_bind]
  rw [uLefts_of_sep (pinv_sep hsep), uRights_of_sep (pinv_sep hsep)]
  rw [AlphaCut.mk']
  simp only [reduceIte, reduceCtorEq, if_neg]
  rw [areLeftRight_ok (pinv ps) (pinv_hlr hlr) (pinv_jun hjun)]
  rfl

theorem checkLevels_ok_iff (l : List AlphaCut) :
    FuzzySet.checkLevels l = .ok () ↔
      List.Chain' (fun hi lo => AlphaCut.contains lo hi = true) l := by
  induction l with
  | nil => simp [FuzzySet.checkLevels]
  | cons j rest ih =>
    cases rest with
    | nil => simp [FuzzySet.checkLevels]
    | cons i rest' =>
      rw [List.chain'_cons]
      have hunf : FuzzySet.checkLevels (j :: i :: rest') =
          if AlphaCut.contains i j = true then FuzzySet.checkLevels (i :: rest')
          else .error .obstructed := rfl
      by_cases hc : AlphaCut.contains i j = true
      · rw [hunf, if_pos hc]
        exact ⟨fun h => ⟨hc, ih.mp h⟩, fun h => ih.mpr h.2⟩
      · rw [hunf, if_neg hc]
        simp [hc]

theorem hasLevel_eq_false {acc : List AlphaCut} {a : Alpha}
    (h : ∀ c ∈ acc, c.level.value ≠ a.value) : FuzzySet.hasLevel acc a = false := by
  simp only [FuzzySet.hasLevel, List.any_eq_false]
  intro c hc
  simpa using h c hc

theorem insertCuts_ok : ∀ (cs acc : List AlphaCut),
    (acc ++ cs).Pairwise (fun a b => a.level.value ≠ b.level.value) →
    FuzzySet.insertCuts acc cs = .ok (acc ++ cs)
  | [], acc, _ => by simp [FuzzySet.insertCuts]
  | c :: rest, acc, h => by
    have hcross := (List.pairwise_append.mp h).2.2
    have hx : FuzzySet.hasLevel acc c.level = false :=
      hasLevel_eq_false (fun d hd => hcross d hd c (List.mem_cons_self c rest))
    have hrec := insertCuts_ok rest (acc ++ [c])
      (by rw [List.append_assoc]; simpa using h)
    simp only [FuzzySet.insertCuts, hx, Bool.false_eq_true, if_false]
    rw [hrec]
    simp

theorem addGo_ok : ∀ (cs acc : List AlphaCut),
    (acc ++ cs).Pairwise (fun a b => a.level.value ≠ b.level.value) →
    FuzzySet.addAlphaCut.go acc cs = (.ok (), acc ++ cs)
  | [], acc, _ => by simp [FuzzySet.addAlphaCut.go]
  | c :: rest, acc, h => by
    have hcross := (List.pairwise_append.mp h).2.2
    have hx : FuzzySet.hasLevel acc c.level = false :=
      hasLevel_eq_false (fun d hd => hcross d hd c (List.mem_cons_self c rest))
    have hrec := addGo_ok rest (acc ++ [c])
      (by rw [List.append_assoc]; simpa using h)
    simp only [FuzzySet.addAlphaCut.go, hx, Bool.false_eq_true, if_false]
    rw [hrec]
    simp

/-! ### Claim theorems -/

/-- C2: after sorting the levels descending, `FuzzySet` construction (and
likewise `add_alpha_cut`, given level-distinct inputs) raises
`ObstructedKind` exactly when some consecutive pair of the sorted cut
list has the higher-level cut not contained (per `AlphaCut.__contains__`)
in the next-lower-level cut — only level-adjacent pairs are checked; and
`FuzzySet([AlphaCut(0.1,0,1), AlphaCut(0.5,0.2,0.8)])` constructs
successfully. -/
theorem nesting_adjacent_iff :
    (∀ cs : List AlphaCut,
      cs.Pairwise (fun a b => a.level.value ≠ b.level.value) →
      (FuzzySet.mk' cs = .error .obstructed ↔
        ¬ List.Chain' (fun hi lo => AlphaCut.contains lo hi = true)
          (FuzzySet.sortCuts cs))) ∧
    (∀ (fs : FuzzySet) (cs : List AlphaCut),
      (fs.cuts ++ cs).Pairwise (fun a b => a.level.value ≠ b.level.value) →
      ((FuzzySet.addAlphaCut fs cs).1 = .error .obstructed ↔
        ¬ List.Chain' (fun hi lo => AlphaCut.contains lo hi = true)
          (FuzzySet.sortCuts (fs.cuts ++ cs)))) ∧
    (do
      let c1 ← AlphaCut.build (mkRat 1 10) [0] [1]
      let c2 ← AlphaCut.build (mkRat 5 10) [mkRat 2 10] [mkRat 8 10]
      FuzzySet.mk' [c1, c2] : Except Err FuzzySet).isOk = true := by
  refine ⟨fun cs h => ?_, fun fs cs h => ?_, by decide⟩
  · unfold FuzzySet.mk'
    rw [insertCuts_ok cs [] (by simpa using h)]
    simp only [ok_bind, List.nil_append]
    rcases checkLevels_cases (FuzzySet.sortCuts cs) with hck | hck <;> rw [hck]
    · simp [← checkLevels_ok_iff, hck]
    · constructor
      · intro _ hchain
        have := (checkLevels_ok_iff _).mpr hchain
        rw [hck] at this
        cases this
      · intro _
        rfl
  · unfold FuzzySet.addAlphaCut
    rw [addGo_ok cs fs.cuts h]
    rcases checkLevels_cases (FuzzySet.sortCuts (fs.cuts ++ cs)) with hck | hck <;> simp only [hck]
    · simp [← checkLevels_ok_iff, hck]
    · constructor
      · intro _ hchain
        have := (checkLevels_ok_iff _).mpr hchain
        rw [hck] at this
        cases this
      · intro _
        trivial

/-- C2 witness: the theorem's construction branch applied to the
concretely obstructed pair `AlphaCut(0.1,0,1)`, `AlphaCut(0.5,2,3)`. -/
theorem nesting_adjacent_iff_witness :
    (do
      let c1 ← AlphaCut.build (mkRat 1 10) [0] [1]
      let c2 ← AlphaCut.build (mkRat 5 10) [2] [3]
      FuzzySet.mk' [c1, c2] : Except Err FuzzySet) = .error .obstructed := by
  have h2 : AlphaCut.build (mkRat 1 10) [0] [1] =
      .ok ⟨⟨.float, mkRat 1 10, false⟩, ⟨[0], false, some .left⟩, ⟨[1], false, some .right⟩⟩ := by
    decide
  have h3 : AlphaCut.build (mkRat 5 10) [2] [3] =
      .ok ⟨⟨.float, mkRat 5 10, false⟩, ⟨[2], false, some .left⟩, ⟨[3], false, some .right⟩⟩ := by
    decide
  rw [h2, h3, ok_bind, ok_bind]
  refine (nesting_adjacent_iff.1 _ (by decide)).mpr ?_
  have hs : FuzzySet.sortCuts
      [⟨⟨.float, mkRat 1 10, false⟩, ⟨[0], false, some .left⟩, ⟨[1], false, some .right⟩⟩,
       ⟨⟨.float, mkRat 5 10, false⟩, ⟨[2], false, some .left⟩, ⟨[3], false, some .right⟩⟩] =
      [⟨⟨.float, mkRat 5 10, false⟩, ⟨[2], false, some .left⟩, ⟨[3], false, some .right⟩⟩,
       ⟨⟨.float, mkRat 1 10, false⟩, ⟨[0], false, some .left⟩, ⟨[1], false, some .right⟩⟩] := by
    decide
  rw [hs, List.chain'_pair]
  decide


/-- C9: `FuzzySet.__eq__` never compares the number of alpha-cuts: it
zips the two sorted cut lists and returns `True` when all zipped pairs
are equal, so whenever one cut list is a positional prefix of the other
the two sets compare equal; concretely, the one-cut set
`FuzzySet([AlphaCut(0.5,0,1)])` equals the two-cut set
`FuzzySet([AlphaCut(0.5,0,1), AlphaCut(0.2,0,2)])`. -/
theorem fuzzy_eq_ignores_length :
    (∀ (fs : FuzzySet) (t : List AlphaCut), FuzzySet.eq fs ⟨fs.cuts ++ t⟩ = .ok true) ∧
    (do
      let c1 ← AlphaCut.build (mkRat 5 10) [0] [1]
      let c2 ← AlphaCut.build (mkRat 2 10) [0] [2]
      let a ← FuzzySet.mk' [c1]
      let b ← FuzzySet.mk' [c1, c2]
      let e ← FuzzySet.eq a b
      pure (e, a.cuts.length, b.cuts.length) : Except Err (Bool × Nat × Nat))
      = .ok (true, 1, 2) := by
  constructor
  · intro fs t
    unfold FuzzySet.eq
    rw [zip_self_append]
    exact eqPairs_self _
  · decide

/-- C3 (amended): `remove_alpha_cut` leaves the level map unchanged on
its (only possible) `NotFoundKind` error, and a single-cut
`add_alpha_cut` call that fails with `DuplicateLevelKind` leaves the map
unchanged — but `add_alpha_cut` inserts before validating the nesting
invariant, so an `ObstructedKind` failure keeps the inserted cut
(no rollback; see the counterexample). -/
theorem mutation_error_rollback :
    (∀ (fs : FuzzySet) (a : Alpha) (e : Err) (post : FuzzySet),
      FuzzySet.removeAlphaCut fs a = (.error e, post) → post = fs ∧ e = .notFound) ∧
    (∀ (fs : FuzzySet) (c : AlphaCut) (post : FuzzySet),
      FuzzySet.addAlphaCut fs [c] = (.error .duplicateLevel, post) → post = fs) := by
  constructor
  · intro fs a e post h
    unfold FuzzySet.removeAlphaCut at h
    by_cases hl : FuzzySet.hasLevel fs.cuts a = true
    · simp [hl] at h
    · simp [hl] at h
      exact ⟨h.2.symm, h.1.symm⟩
  · intro fs c post h
    unfold FuzzySet.addAlphaCut at h
    by_cases hl : FuzzySet.hasLevel fs.cuts c.level = true
    · simp [FuzzySet.addAlphaCut.go, hl] at h
      cases fs
      exact h.symm
    · simp [FuzzySet.addAlphaCut.go, hl] at h
      rcases checkLevels_cases (FuzzySet.sortCuts (fs.cuts ++ [c])) with hck | hck <;>
        rw [hck] at h <;> simp at h

/-- C3 counterexample: adding `AlphaCut(0.5, 2, 3)` to
`FuzzySet([AlphaCut(0.1, 0, 1)])` raises `ObstructedKind`, yet afterwards
the level map holds two cuts (the pre-call set held one): the failed
mutation is not rolled back. -/
theorem add_obstructed_keeps_mutation :
    (do
      let c1 ← AlphaCut.build (mkRat 1 10) [0] [1]
      let c2 ← AlphaCut.build (mkRat 5 10) [2] [3]
      let fs ← FuzzySet.mk' [c1]
      let p := FuzzySet.addAlphaCut fs [c2]
      pure (p.1, p.2.cuts.length, fs.cuts.length) : Except Err (Except Err Unit × Nat × Nat))
      = .ok (.error .obstructed, 2, 1) := by decide

/-- C3 witness: the `remove_alpha_cut` branch of the theorem applied to
the empty fuzzy set. -/
theorem mutation_error_rollback_witness :
    (⟨[]⟩ : FuzzySet) = ⟨[]⟩ ∧ Err.notFound = Err.notFound :=
  mutation_error_rollback.1 ⟨[]⟩ ⟨.float, 0, false⟩ .notFound ⟨[]⟩ (by decide)

/-- C4: `Lukasiewicz.__call__` computes the relaxed intermediate
`a + b - 1` but then assigns `small_check = False`, which re-runs the
range check, so for `a + b < 1` (here `0.2 + 0.3`) the call raises
`RangeKind` instead of returning the zero Alpha demanded by the
`max(0, a+b-1)` specification; the zero result is reached only at
`a + b = 1` exactly. -/
theorem lukasiewicz_below_one_raises :
    lukasiewicz ⟨.float, 2/10, false⟩ ⟨.float, 3/10, false⟩ = .error .rangeErr ∧
    lukasiewicz ⟨.float, 4/10, false⟩ ⟨.float, 6/10, false⟩ = .ok (zeroAlpha .float) := by
  constructor <;>
    norm_num [lukasiewicz, Alpha.add, Alpha.sub, Alpha.checkAndDo, tnormCheck,
      Alpha.setSmallCheckFalse, oneAlpha, zeroAlpha, Alpha.gt]

set_option maxHeartbeats 4000000 in
/-- C5: the end-to-end extension-principle addition
`FuzzySet([AlphaCut(1.0,0,1)]).add_with_tnorm(FuzzySet([AlphaCut(1.0,0,1)]), Min)`
equals `FuzzySet([AlphaCut(1.0,0,2)])` (t-norm of the level pair,
cartesian border sums, level buckets, rebuild via `from_bordersides`). -/
theorem add_with_tnorm_concrete :
    (do
      let c1 ← AlphaCut.build 1 [0] [1]
      let c2 ← AlphaCut.build 1 [0] [1]
      let a ← FuzzySet.mk' [c1]
      let b ← FuzzySet.mk' [c2]
      let r ← FuzzySet.addWithTnorm a b minT
      let c3 ← AlphaCut.build 1 [0] [2]
      let e ← FuzzySet.mk' [c3]
      FuzzySet.eq r e : Except Err Bool) = .ok true := by
  norm_num +decide [AlphaCut.build, Alpha.mk', Border.mk', AlphaCut.mk', Border.areLeftRight,
    FuzzySet.mk', FuzzySet.insertCuts, FuzzySet.sortCuts, FuzzySet.checkLevels,
    FuzzySet.addWithTnorm, minT, tnormCheck, Alpha.lt, Border.add, Border.getSabList,
    FuzzySet.bucketAdd, AlphaCut.fromBordersides, Border.uncover, sweep,
    List.insertionSort, List.orderedInsert, sabLE, strictSorted,
    FuzzySet.eq, FuzzySet.eqPairs, AlphaCut.eq, Alpha.eq, FuzzySet.hasLevel,
    AlphaCut.contains, List.mapM, List.mapM.loop, List.foldlM, List.flatMap, List.zip,
    List.zipWith, List.all, List.filter, List.headI, List.findIdx?, List.getD, List.getLastD]

/-- C7 (amended): for Alphas of differing representation, `+`, `-`, `*`
and `**` (all routed through `_check_and_do_given_operation`, here
quantified over the operation it is given) raise `TypeKind`, and so does
`/` — except that `/` tests the divisor value against zero first, so a
zero-valued divisor of a different representation raises
`DivideByZeroKind` instead; every operation that succeeds returns an
Alpha built with the relaxation flag enabled. -/
theorem alpha_binop_rep_check :
    (∀ (a b : Alpha) (op : ℚ → ℚ → ℚ), a.rep ≠ b.rep →
      Alpha.checkAndDo a b op = .error .typeErr) ∧
    (∀ a b : Alpha, a.rep ≠ b.rep →
      Alpha.add a b = .error .typeErr ∧ Alpha.sub a b = .error .typeErr ∧
      Alpha.mul a b = .error .typeErr ∧
      (b.value ≠ 0 → Alpha.div a b = .error .typeErr) ∧
      (b.value = 0 → Alpha.div a b = .error .divideByZero)) ∧
    (∀ (a b : Alpha) (op : ℚ → ℚ → ℚ) (r : Alpha),
      Alpha.checkAndDo a b op = .ok r → r.smallCheck = true) ∧
    (∀ a b r : Alpha, Alpha.div a b = .ok r → r.smallCheck = true) := by
  refine ⟨fun a b op h => by simp [Alpha.checkAndDo, h], fun a b h => ?_, ?_, ?_⟩
  · refine ⟨by simp [Alpha.add, Alpha.checkAndDo, h], by simp [Alpha.sub, Alpha.checkAndDo, h],
      by simp [Alpha.mul, Alpha.checkAndDo, h], fun hz => ?_, fun hz => ?_⟩
    · simp [Alpha.div, Alpha.checkAndDo, h, hz]
    · simp [Alpha.div, hz]
  · intro a b op r h
    unfold Alpha.checkAndDo at h
    by_cases hr : a.rep = b.rep
    · simp [hr] at h
      subst h
      rfl
    · simp [hr] at h
  · intro a b r h
    unfold Alpha.div Alpha.checkAndDo at h
    by_cases hz : b.value = 0
    · simp [hz] at h
    · by_cases hr : a.rep = b.rep
      · simp [hz, hr] at h
        subst h
        rfl
      · simp [hz, hr] at h

/-- C7 counterexample: dividing a float Alpha by a zero-valued Fraction
Alpha — operands of differing representation — raises `DivideByZeroKind`,
not the `TypeKind` required by the claim for every operator. -/
theorem div_mixed_rep_zero :
    Alpha.div ⟨.float, 1, false⟩ ⟨.fraction, 0, false⟩ = .error .divideByZero ∧
    Rep.float ≠ Rep.fraction ∧ Err.divideByZero ≠ Err.typeErr := by decide

/-- C7 witness: the theorem applied to a float/Fraction pair. -/
theorem alpha_binop_rep_check_witness :
    Alpha.add ⟨.float, 0, false⟩ ⟨.fraction, 0, false⟩ = .error .typeErr :=
  (alpha_binop_rep_check.2.1 ⟨.float, 0, false⟩ ⟨.fraction, 0, false⟩ (by decide)).1

/-- C10: for Alphas of differing representation the order comparisons
`<` and `>` never raise — they compare the wrapped values directly with
no representation check, returning a boolean — while `==` raises
`TypeKind` on the same pair. -/
theorem lt_gt_value_only (a b : Alpha) (h : a.rep ≠ b.rep) :
    Alpha.lt a b = decide (a.value < b.value) ∧
    Alpha.gt a b = decide (a.value > b.value) ∧
    Alpha.eq a b = .error .typeErr := by
  exact ⟨rfl, rfl, by simp [Alpha.eq, h]⟩

/-- C10 witness: the theorem applied to a float/Fraction pair. -/
theorem lt_gt_value_only_witness :
    Alpha.lt ⟨.float, 0, false⟩ ⟨.fraction, 1, false⟩ = true ∧
    Alpha.eq ⟨.float, 0, false⟩ ⟨.fraction, 1, false⟩ = .error .typeErr := by
  have h := lt_gt_value_only ⟨.float, 0, false⟩ ⟨.fraction, 1, false⟩ (by decide)
  exact ⟨by rw [h.1]; decide, h.2.2⟩

/-- C1: `Border.uncover` on equal-length, role-tagged borders sweeps the
coordinate-sorted tagged breakpoints with a counter from 0, emitting new
left boundaries when the counter becomes 1 and new right boundaries when
it becomes 0; it raises `MalformedIntervalKind` when the counter goes
negative and otherwise returns two sorted, equal-length, uncovered
borders; concretely `uncover(left=[1.0], right=[-1.0])` raises
`MalformedIntervalKind` and `uncover(left=[2.0,1.0], right=[1.5,2.5])`
yields `left=(1.0,2.0)`, `right=(1.5,2.5)`. -/
theorem uncover_spec :
    (∀ left right : Border,
      left.borders.length = right.borders.length →
      left.borders ≠ [] →
      left.side = some .left → right.side = some .right →
      Border.uncover left right = .error .malformedInterval ∨
      ∃ bl br, Border.uncover left right = .ok (bl, br) ∧
        bl.borders.Pairwise (· < ·) ∧ br.borders.Pairwise (· < ·) ∧
        bl.borders.length = br.borders.length ∧
        bl.covered = false ∧ br.covered = false ∧
        bl.side = some .left ∧ br.side = some .right) ∧
    Border.uncover ⟨[1], false, some .left⟩ ⟨[-1], false, some .right⟩
      = .error .malformedInterval ∧
    Border.uncover ⟨[2, 1], true, some .left⟩ ⟨[mkRat 3 2, mkRat 5 2], false, some .right⟩
      = .ok (⟨[1, 2], false, some .left⟩, ⟨[mkRat 3 2, mkRat 5 2], false, some .right⟩) := by
  refine ⟨fun l r hlen hne hsl hsr => ?_, by decide, by decide⟩
  unfold Border.uncover
  rw [if_neg (by simp [hlen])]
  simp only [Border.getSabList, hsl, hsr, ok_bind]
  set ops := (l.borders.map (fun c => (⟨BSide.left, c⟩ : SaB))) ++
      (r.borders.map (fun c => (⟨BSide.right, c⟩ : SaB))) with hops
  set S := List.insertionSort sabLE ops with hS
  have hperm : S.Perm ops := List.perm_insertionSort sabLE ops
  have hpair : S.Pairwise sabLE := List.sorted_insertionSort sabLE ops
  have hcnt : (S.countP (fun s => s.side == BSide.left) : Int) =
      S.countP (fun s => s.side == BSide.right) := by
    rw [hperm.countP_eq, hperm.countP_eq, hops]
    simp only [List.countP_append, List.countP_map]
    norm_num [Function.comp_def, hlen,
      show (BSide.right == BSide.left) = false from rfl,
      show (BSide.left == BSide.right) = false from rfl]
  rcases hsw : sweep S 0 [] [] with _ | ⟨nl, nr⟩
  · exact Or.inl rfl
  · cases hSnil : S with
    | nil =>
      exfalso
      have : ops.length = 0 := by rw [← hperm.length_eq, hSnil, List.length_nil]
      rw [hops] at this
      simp at this
      exact hne this.1
    | cons s S' =>
      obtain ⟨sside, scoord⟩ := s
      rw [hSnil] at hsw hpair hcnt
      obtain ⟨hs_rest, hrest⟩ := List.pairwise_cons.mp hpair
      cases sside with
      | right => simp [sweep] at hsw
      | left =>
        simp only [sweep, zero_add, if_pos rfl, List.nil_append] at hsw
        have hres := sweep_ok S' 1 [scoord] [] hrest (by norm_num)
          (List.pairwise_singleton _ _) List.Pairwise.nil
          (by norm_num)
          (by
            intro y hy u hu
            rw [List.mem_singleton] at hy
            subst hy
            exact sabLE_coord_le (hs_rest u hu))
          (by intro y hy; cases hy)
          (by intro _ y hy; cases hy)
          (by intro h; cases h)
          nl nr hsw
        obtain ⟨p1, p2, p3, ⟨t1, ht1⟩, _⟩ := hres
        have hcnt' : (1 : Int) + S'.countP (fun s => s.side == BSide.left) -
            S'.countP (fun s => s.side == BSide.right) = 0 := by
          simp only [List.countP_cons] at hcnt
          simp at hcnt
          omega
        rw [if_pos hcnt'] at p3
        have hleneq : nl.length = nr.length := by
          omega
        have hnl_ne : nl ≠ [] := by
          rw [ht1]
          simp
        have hnr_ne : nr ≠ [] := by
          intro hcon
          rw [hcon] at hleneq
          simp at hleneq
          exact hnl_ne hleneq
        refine Or.inr ⟨⟨nl, false, some .left⟩, ⟨nr, false, some .right⟩, ?_, p1, p2,
          hleneq, rfl, rfl, rfl, rfl⟩
        simp only [Border.mk', List.isEmpty_eq_true, hnl_ne, hnr_ne, if_neg,
          strictSorted_of_pairwise p1, strictSorted_of_pairwise p2]
        simp [hnl_ne, hnr_ne, strictSorted_of_pairwise p1, strictSorted_of_pairwise p2]

/-- C1 witness: the general branch of the theorem applied to the concrete
borders `left=[2.0,1.0]`, `right=[1.5,2.5]`. -/
theorem uncover_spec_witness :
    Border.uncover ⟨[2, 1], true, some .left⟩ ⟨[mkRat 3 2, mkRat 5 2], false, some .right⟩
        = .error .malformedInterval ∨
      ∃ bl br,
        Border.uncover ⟨[2, 1], true, some .left⟩
            ⟨[mkRat 3 2, mkRat 5 2], false, some .right⟩ = .ok (bl, br) ∧
        bl.borders.Pairwise (· < ·) ∧ br.borders.Pairwise (· < ·) ∧
        bl.borders.length = br.borders.length ∧
        bl.covered = false ∧ br.covered = false ∧
        bl.side = some .left ∧ br.side = some .right :=
  uncover_spec.1 ⟨[2, 1], true, some .left⟩ ⟨[mkRat 3 2, mkRat 5 2], false, some .right⟩
    (by decide) (by decide) rfl rfl


/-- C6 (amended): for every validly constructed AlphaCut whose
consecutive intervals are strictly separated (`right i < left (i+1)`,
which includes every convex cut), `c.invert().invert()` returns `c`
itself; when some consecutive intervals touch, the `uncover` repair
inside `invert` merges them, so the double inversion is not the identity
and not even equal to `c` as a set of intervals (see the
counterexample). -/
theorem double_invert_separated (rep : Rep) (v : ℚ) (hv0 : 0 ≤ v) (hv1 : v ≤ 1)
    (ps : List (ℚ × ℚ)) (hne : ps ≠ [])
    (hlr : ∀ p ∈ ps, p.1 ≤ p.2)
    (hsep : List.Chain' (fun p q => p.2 < q.1) ps)
    (hstL : List.Chain' (fun p q => p.1 < q.1) ps)
    (hstR : List.Chain' (fun p q => p.2 < q.2) ps) :
    (AlphaCut.invert ⟨⟨rep, v, false⟩, ⟨ps.map (·.1), false, some .left⟩,
        ⟨ps.map (·.2), false, some .right⟩⟩ >>= AlphaCut.invert) =
      .ok ⟨⟨rep, v, false⟩, ⟨ps.map (·.1), false, some .left⟩,
        ⟨ps.map (·.2), false, some .right⟩⟩ := by
  rw [invert_sep rep v hv0 hv1 ps hne hlr hsep hstL hstR, ok_bind]
  have h2 := invert_sep rep v hv0 hv1 (pinv ps) (pinv_ne hne) (pinv_hlr hlr)
    (pinv_sep hsep) (pinv_stL hstR) (pinv_stR hstL)
  rw [h2, pinv_pinv]

set_option maxHeartbeats 4000000 in
/-- C6 counterexample: for the touching cut
`c = AlphaCut(0.5, (0,1), (1,2))`, `c.invert().invert()` yields the
single-interval cut `AlphaCut(0.5, (0,), (2,))`: it is not `==`-equal to
`c`, and the interval `(0, 1)` of `c` is not among the result intervals,
so the two are not equal as sets of intervals either. -/
theorem double_invert_touching_merges :
    (do
      let c ← AlphaCut.build (mkRat 5 10) [0, 1] [1, 2]
      let c1 ← AlphaCut.invert c
      let c2 ← AlphaCut.invert c1
      let e ← AlphaCut.eq c2 c
      pure (c2.left.borders, c2.right.borders, e,
        decide (((0 : ℚ), (1 : ℚ)) ∈ c2.left.borders.zip c2.right.borders))
      : Except Err (List ℚ × List ℚ × Bool × Bool))
      = .ok ([0], [2], false, false) := by
  norm_num +decide [AlphaCut.build, Alpha.mk', Border.mk', AlphaCut.mk', Border.areLeftRight,
    AlphaCut.invert, Border.mul, Border.uncover, Border.getSabList, sweep,
    List.insertionSort, List.orderedInsert, sabLE, strictSorted,
    AlphaCut.eq, Alpha.eq, List.flatMap, List.zip, List.zipWith, List.all]

/-- C6 witness: the amended theorem applied to the strictly separated
two-interval cut `AlphaCut(0.5, (0, 4), (1, 5))`. -/
theorem double_invert_separated_witness :
    (AlphaCut.invert ⟨⟨.float, mkRat 5 10, false⟩,
        ⟨[((0 : ℚ), (1 : ℚ)), (4, 5)].map (·.1), false, some .left⟩,
        ⟨[((0 : ℚ), (1 : ℚ)), (4, 5)].map (·.2), false, some .right⟩⟩ >>=
      AlphaCut.invert) =
      .ok ⟨⟨.float, mkRat 5 10, false⟩,
        ⟨[((0 : ℚ), (1 : ℚ)), (4, 5)].map (·.1), false, some .left⟩,
        ⟨[((0 : ℚ), (1 : ℚ)), (4, 5)].map (·.2), false, some .right⟩⟩ :=
  double_invert_separated .float (mkRat 5 10) (by norm_num) (by norm_num)
    [((0 : ℚ), (1 : ℚ)), (4, 5)] (by decide) (by decide)
    (by rw [List.chain'_pair]; decide) (by rw [List.chain'_pair]; decide)
    (by rw [List.chain'_pair]; decide)

/-- C8 (amended): inside `Border.uncover`, tagged points with equal
coordinates are processed with all Left tags before all Right tags, so a
touching junction of a sorted non-overlapping interval sequence never
closes the running interval and the touching intervals are merged: for
every pair of borders holding the lefts and rights of such a sequence in
which some right endpoint equals the next left endpoint, the output has
strictly fewer intervals than the input (for unsorted border pairs this
can fail: see the counterexample); e.g. uncover of `left=(1,2)`,
`right=(2,3)` returns the single interval `left=(1,)`, `right=(3,)`. -/
theorem uncover_touching_merges :
    (∀ (ps : List (ℚ × ℚ)) (cl cr : Bool),
      ps ≠ [] →
      (∀ p ∈ ps, p.1 ≤ p.2) →
      List.Chain' (fun p q => p.2 ≤ q.1) ps →
      List.Chain' (fun p q => p.1 < q.1) ps →
      List.Chain' (fun p q => p.2 < q.2) ps →
      (∃ i, ∃ h : i + 1 < ps.length,
        (ps.get ⟨i, by omega⟩).2 = (ps.get ⟨i + 1, h⟩).1) →
      ∃ bl br,
        Border.uncover ⟨ps.map (·.1), cl, some .left⟩ ⟨ps.map (·.2), cr, some .right⟩
          = .ok (bl, br) ∧
        bl.borders.length < ps.length ∧ br.borders.length < ps.length) ∧
    Border.uncover ⟨[1, 2], false, some .left⟩ ⟨[2, 3], false, some .right⟩
      = .ok (⟨[1], false, some .left⟩, ⟨[3], false, some .right⟩) := by
  constructor
  · intro ps cl cr hne hlr hjun hstL hstR htouch
    have hnsep : ¬ List.Chain' (fun p q => p.2 < q.1) ps := by
      intro hchain
      rw [List.chain'_iff_get] at hchain
      obtain ⟨i, h, heq⟩ := htouch
      have hlt := hchain i (by omega)
      rw [heq] at hlt
      exact lt_irrefl _ hlt
    obtain ⟨p0, ps', rfl⟩ : ∃ p0 ps', ps = p0 :: ps' := by
      cases ps with
      | nil => exact absurd rfl hne
      | cons a l => exact ⟨a, l, rfl⟩
    have hnall : ¬ allSep p0.2 ps' := fun h =>
      hnsep ((allSep_iff_chain ps' p0).mp h)
    refine ⟨⟨uLefts (p0 :: ps'), false, some .left⟩,
      ⟨uRights (p0 :: ps'), false, some .right⟩,
      uncover_perm (p0 :: ps') hne hlr hjun hstL hstR _ _ cl cr
        (List.Perm.refl _) (List.Perm.refl _), ?_, ?_⟩
    · show (uLefts (p0 :: ps')).length < (p0 :: ps').length
      rw [uLefts]
      simpa using mergedL_length_lt ps' p0.2 hnall
    · show (uRights (p0 :: ps')).length < (p0 :: ps').length
      rw [uRights, mergedR_length]
      simpa using mergedL_length_lt ps' p0.2 hnall
  · decide

/-- C8 counterexample: the border pair `left=(3,2)`, `right=(2,10)` (a
constructible covered Border pair) has a right endpoint equal to the next
left endpoint (`right[0] = 2 = left[1]`), yet `uncover` returns
`left=(2,3)`, `right=(2,10)` — two intervals in, two intervals out, not
strictly fewer. -/
theorem uncover_unsorted_touching_no_merge :
    Border.uncover ⟨[3, 2], true, some .left⟩ ⟨[2, 10], false, some .right⟩
      = .ok (⟨[2, 3], false, some .left⟩, ⟨[2, 10], false, some .right⟩) ∧
    ([2, 10] : List ℚ).getD 0 0 = ([3, 2] : List ℚ).getD 1 0 ∧
    ¬ (([2, 3] : List ℚ).length < ([3, 2] : List ℚ).length) := by decide

/-- C8 witness: the amended theorem applied to the touching sequence
`(1,2), (2,3)`. -/
theorem uncover_touching_merges_witness :
    ∃ bl br,
      Border.uncover ⟨[((1 : ℚ), (2 : ℚ)), (2, 3)].map (·.1), false, some .left⟩
          ⟨[((1 : ℚ), (2 : ℚ)), (2, 3)].map (·.2), false, some .right⟩
        = .ok (bl, br) ∧
      bl.borders.length < ([((1 : ℚ), (2 : ℚ)), (2, 3)] : List (ℚ × ℚ)).length ∧
      br.borders.length < ([((1 : ℚ), (2 : ℚ)), (2, 3)] : List (ℚ × ℚ)).length :=
  uncover_touching_merges.1 [((1 : ℚ), (2 : ℚ)), (2, 3)] false false
    (by decide) (by decide)
    (by rw [List.chain'_pair]) (by rw [List.chain'_pair]; decide)
    (by rw [List.chain'_pair]; decide)
    ⟨0, by decide, by decide⟩

end FSA
